import Mathlib

/-!
Shallow embedding of `realtime_benchmark.py` (repository theaxiomverse/quids-evm-cpp).

The embedded fragments:
* the four-digest hash chain of `process_transaction` and the batch worker
  `process_batch` / result publication (lines 141-184);
* the Producer loop body of `submit_transactions` (lines 206-249): non-blocking
  queue submission with drop-on-full, the `accumulated_tx` / `transaction_count`
  counters, and the 100 ms TPS report (`int(accumulated_tx / actual_window)`,
  `peak_tps = max(peak_tps, current_tps)`);
* the `deque(maxlen=600)` sample series of `update_plot` (lines 46-50, 102-106);
* the batch-size clamp and pacing interval (lines 60-63, 203);
* the final summary record written by `cleanup` (lines 311-316).

Machine reals (Python floats) are modelled as exact rationals; Python
`int(x)` is modelled as truncation toward zero on rationals.  The hashlib
digest functions live outside the repository, so digests are represented
symbolically as terms, and a digest call is a function that may fail
(`Except`), mirroring the `try/except` in `process_transaction`.
-/

namespace RB

/-- Hash algorithms called by `process_transaction`: `hashlib.blake2b`,
`hashlib.sha3_256`, `hashlib.sha3_512`, `hashlib.blake2s` (lines 145-154). -/
inductive HashAlg
  | blake2b
  | sha3_256
  | sha3_512
  | blake2s
deriving DecidableEq

/-- Digest size in bytes of each algorithm at hashlib defaults. -/
def digestSize : HashAlg → Nat
  | .blake2b => 64
  | .sha3_256 => 32
  | .sha3_512 => 64
  | .blake2s => 32

/-- Byte strings.  Digests of the external hashlib functions are represented
symbolically (the hash internals are not part of this repository). -/
inductive Bytes
  | raw : List Nat → Bytes
  | digest : HashAlg → Bytes → Bytes
  | append : Bytes → Bytes → Bytes
deriving DecidableEq

/-- The digest family actually supplied by hashlib: a total function
(blake2/sha3 digests never raise on byte-string input); the digest value is
kept symbolic. -/
def hashlibDigest : HashAlg → Bytes → Except String Bytes :=
  fun a x => .ok (.digest a x)

/-- The digest chain of `process_transaction` (lines 144-154), parametrised by
the digest family `H` so that a raising digest call can be expressed:
tx_hash = blake2b(tx_data); sig_verify = sha3_256(tx_hash);
state_update = sha3_512(sig_verify + tx_hash); merkle_update = blake2s(state_update).
Returns the four digests, or the first raised fault. -/
def processDigests (H : HashAlg → Bytes → Except String Bytes) (tx_data : Bytes) :
    Except String (Bytes × Bytes × Bytes × Bytes) :=
  match H .blake2b tx_data with
  | .error e => .error e
  | .ok tx_hash =>
    match H .sha3_256 tx_hash with
    | .error e => .error e
    | .ok sig_verify =>
      match H .sha3_512 (.append sig_verify tx_hash) with
      | .error e => .error e
      | .ok state_update =>
        match H .blake2s state_update with
        | .error e => .error e
        | .ok merkle_update => .ok (tx_hash, sig_verify, state_update, merkle_update)

/-- `process_transaction` (lines 141-159): returns True when the digest chain
completes, and on a raised fault catches it and returns False. -/
def process_transaction (H : HashAlg → Bytes → Except String Bytes)
    (tx_data : Bytes) : Bool :=
  match processDigests H tx_data with
  | .ok _ => true
  | .error _ => false

/-- `process_batch` (lines 161-166): one boolean result per transaction. -/
def process_batch (H : HashAlg → Bytes → Except String Bytes)
    (batch : List Bytes) : List Bool :=
  batch.map (process_transaction H)

/-- The per-batch count a worker publishes to the result queue (line 184):
`len([r for r in results if r])`. -/
def publishedCount (results : List Bool) : Nat :=
  (results.filter id).length

/-- Python `int(x)`: truncation toward zero, on exact rationals. -/
def pyInt (x : ℚ) : ℤ :=
  if 0 ≤ x then ⌊x⌋ else -⌊-x⌋

/-- Line 238: `current_tps = int(accumulated_tx / actual_window)`. -/
def currentTPS (accumulated : ℕ) (window : ℚ) : ℤ :=
  pyInt ((accumulated : ℚ) / window)

/-- Lines 227-233: drain the result queue, adding each positive processed
count to `accumulated_tx`. -/
def drainResults (acc : ℕ) (results : List ℕ) : ℕ :=
  results.foldl (fun a processed => if 0 < processed then a + processed else a) acc

/-- The Producer-side mutable state touched by one `submit_transactions` loop
iteration: the tx queue contents, the window accumulator, the lifetime
transaction counter, and the TPS report fields. -/
structure LoopState where
  q : List Bytes
  accumulated_tx : ℕ
  transaction_count : ℕ
  current_tps : ℤ
  peak_tps : ℤ
deriving DecidableEq

/-- Lines 217-221: one `put_nowait` attempt on a queue of capacity `cap`.
On `queue.Full` the producer sleeps 0.0001 s and `continue`s to the next item,
so the rejected item is dropped; there is no retry. -/
def pushItem (cap : ℕ) (q : List Bytes) (item : Bytes) : List Bytes :=
  if q.length < cap then q ++ [item] else q

/-- Lines 214-221: the per-batch submission loop over the generated items. -/
def submitItems (cap : ℕ) (q : List Bytes) (items : List Bytes) : List Bytes :=
  items.foldl (pushItem cap) q

/-- One iteration of the `submit_transactions` loop body (lines 211-241), in
the branch where a batch is due: submit `items` (drop-on-full), add the batch
size to both counters (lines 223-224), drain the result queue (lines 227-233),
then, when the elapsed window is at least 0.1 s, store
`int(accumulated_tx / window)` as `current_tps`, fold it into `peak_tps`, and
reset the accumulator (lines 236-241). -/
def producerIteration (cap : ℕ) (st : LoopState) (items : List Bytes)
    (results : List ℕ) (window : ℚ) : LoopState :=
  let q2 := submitItems cap st.q items
  let acc2 := st.accumulated_tx + items.length
  let txc2 := st.transaction_count + items.length
  let acc3 := drainResults acc2 results
  if (1 : ℚ)/10 ≤ window then
    let tps := pyInt ((acc3 : ℚ) / window)
    ⟨q2, 0, txc2, tps, max st.peak_tps tps⟩
  else
    ⟨q2, acc3, txc2, st.current_tps, st.peak_tps⟩

/-- A run of the Producer loop: each step is the generated batch, the drained
result counts, and the elapsed TPS window of that iteration. -/
def runProducer (cap : ℕ) (st : LoopState)
    (steps : List (List Bytes × List ℕ × ℚ)) : LoopState :=
  steps.foldl (fun s step => producerIteration cap s step.1 step.2.1 step.2.2) st

/-- The `current_tps` values actually reported (stored at line 238) along a
run, in order. -/
def reportedTPS (cap : ℕ) (st : LoopState) :
    List (List Bytes × List ℕ × ℚ) → List ℤ
  | [] => []
  | step :: rest =>
    let s2 := producerIteration cap st step.1 step.2.1 step.2.2
    (if (1 : ℚ)/10 ≤ step.2.2 then [s2.current_tps] else []) ++
      reportedTPS cap s2 rest

/-- Line 46: `self.max_points = 600`. -/
def max_points : ℕ := 600

/-- `collections.deque(maxlen=n)` append: when the deque is at its maximum
length, the oldest (leftmost) entry is discarded as the new one is appended
on the right (lines 47-50, 103-106). -/
def dequeAppend {α : Type} (maxlen : ℕ) (l : List α) (x : α) : List α :=
  if l.length < maxlen then l ++ [x] else l.tail ++ [x]

/-- Repeated appends into a bounded deque (one `update_plot` call appends one
sample to each series). -/
def appendAll {α : Type} (maxlen : ℕ) (l : List α) (xs : List α) : List α :=
  xs.foldl (dequeAppend maxlen) l

/-- Line 31: `self.target_tps = 1_000_000`. -/
def target_tps : ℕ := 1000000

/-- Lines 61-63: `min(max_batch, max(min_batch, self.target_tps // 100))`
with min_batch = 5000, max_batch = 50000. -/
def batchSizeFor (tps : ℕ) : ℕ :=
  min 50000 (max 5000 (tps / 100))

/-- The batch size configured at startup. -/
def batch_size : ℕ := batchSizeFor target_tps

/-- Line 203: `batch_interval = 1.0 / (self.target_tps / self.params['batch_size'])`,
on exact rationals. -/
def batchInterval (tps bs : ℚ) : ℚ :=
  1 / (tps / bs)

/-- The final summary record written by `cleanup` (lines 311-316). -/
structure Summary where
  peak_tps : ℤ
  avg_tps : ℚ
  processed_transactions : ℕ
deriving DecidableEq

/-- Lines 311-316: `peak_tps`, `avg_tps = np.mean(tps_values)` (0 when the
series is empty), and `processed_transactions = self.transaction_count`. -/
def cleanupSummary (st : LoopState) (tps_values : List ℤ) : Summary :=
  { peak_tps := st.peak_tps
    avg_tps := if tps_values.isEmpty then 0 else (tps_values.sum : ℚ) / tps_values.length
    processed_transactions := st.transaction_count }

/-! Helper lemmas shared by the claim theorems. -/

theorem drainResults_eq_sum (results : List ℕ) : ∀ acc : ℕ,
    drainResults acc results = acc + results.sum := by
  induction results with
  | nil => intro acc; simp [drainResults]
  | cons r rest ih =>
    intro acc
    by_cases hr : 0 < r
    · simp only [drainResults, List.foldl_cons, if_pos hr] at *
      rw [ih (acc + r)]
      simp [List.sum_cons]
      ring
    · have hr0 : r = 0 := Nat.eq_zero_of_not_pos hr
      simp only [drainResults, List.foldl_cons, if_neg hr] at *
      rw [ih acc]
      simp [hr0]

theorem pyInt_eq_floor {x : ℚ} (hx : 0 ≤ x) : pyInt x = ⌊x⌋ := by
  simp [pyInt, hx]

theorem pyInt_nonneg {x : ℚ} (hx : 0 ≤ x) : 0 ≤ pyInt x := by
  rw [pyInt_eq_floor hx]
  exact Int.floor_nonneg.mpr hx

theorem producerIteration_report (cap : ℕ) (st : LoopState) (items : List Bytes)
    (results : List ℕ) (window : ℚ) (hw : (1 : ℚ)/10 ≤ window) :
    producerIteration cap st items results window =
      ⟨submitItems cap st.q items, 0, st.transaction_count + items.length,
        pyInt (((st.accumulated_tx + items.length + results.sum : ℕ) : ℚ) / window),
        max st.peak_tps
          (pyInt (((st.accumulated_tx + items.length + results.sum : ℕ) : ℚ) / window))⟩ := by
  simp only [producerIteration, if_pos hw, drainResults_eq_sum]

theorem producerIteration_no_report (cap : ℕ) (st : LoopState) (items : List Bytes)
    (results : List ℕ) (window : ℚ) (hw : ¬ (1 : ℚ)/10 ≤ window) :
    producerIteration cap st items results window =
      ⟨submitItems cap st.q items, st.accumulated_tx + items.length + results.sum,
        st.transaction_count + items.length, st.current_tps, st.peak_tps⟩ := by
  simp only [producerIteration, if_neg hw, drainResults_eq_sum]

theorem producerIteration_transaction_count (cap : ℕ) (st : LoopState)
    (items : List Bytes) (results : List ℕ) (window : ℚ) :
    (producerIteration cap st items results window).transaction_count =
      st.transaction_count + items.length := by
  by_cases hw : (1 : ℚ)/10 ≤ window
  · rw [producerIteration_report cap st items results window hw]
  · rw [producerIteration_no_report cap st items results window hw]

theorem producerIteration_peak (cap : ℕ) (st : LoopState)
    (items : List Bytes) (results : List ℕ) (window : ℚ) :
    st.peak_tps ≤ (producerIteration cap st items results window).peak_tps := by
  by_cases hw : (1 : ℚ)/10 ≤ window
  · rw [producerIteration_report cap st items results window hw]
    exact le_max_left _ _
  · rw [producerIteration_no_report cap st items results window hw]

theorem le_foldl_max (l : List ℤ) : ∀ a : ℤ, a ≤ l.foldl max a := by
  induction l with
  | nil => intro a; simp
  | cons x rest ih =>
    intro a
    calc a ≤ max a x := le_max_left a x
    _ ≤ (rest.foldl max (max a x)) := ih (max a x)

theorem foldl_max_eq_or_mem (l : List ℤ) : ∀ a : ℤ,
    l.foldl max a = a ∨ l.foldl max a ∈ l := by
  induction l with
  | nil => intro a; left; rfl
  | cons x rest ih =>
    intro a
    rcases ih (max a x) with h | h
    · simp only [List.foldl_cons, h]
      rcases max_choice a x with hm | hm
      · left; exact hm
      · right; rw [hm]; exact List.mem_cons_self x rest
    · right
      exact List.mem_cons_of_mem x h

theorem foldl_max_is_ub (l : List ℤ) : ∀ a : ℤ, ∀ x ∈ l, x ≤ l.foldl max a := by
  induction l with
  | nil => intro a x hx; cases hx
  | cons y rest ih =>
    intro a x hx
    simp only [List.foldl_cons]
    rcases List.mem_cons.mp hx with h | h
    · rw [h]
      calc y ≤ max a y := le_max_right a y
      _ ≤ rest.foldl max (max a y) := le_foldl_max rest (max a y)
    · exact ih (max a y) x h

theorem runProducer_peak_eq (cap : ℕ) :
    ∀ (steps : List (List Bytes × List ℕ × ℚ)) (st : LoopState),
    (runProducer cap st steps).peak_tps =
      (reportedTPS cap st steps).foldl max st.peak_tps := by
  intro steps
  induction steps with
  | nil => intro st; rfl
  | cons step rest ih =>
    intro st
    by_cases hw : (1 : ℚ)/10 ≤ step.2.2
    · simp only [runProducer, List.foldl_cons, reportedTPS, if_pos hw,
        List.singleton_append]
      rw [show (List.foldl (fun s stp => producerIteration cap s stp.1 stp.2.1 stp.2.2)
          (producerIteration cap st step.1 step.2.1 step.2.2) rest) =
          runProducer cap (producerIteration cap st step.1 step.2.1 step.2.2) rest from rfl]
      rw [ih (producerIteration cap st step.1 step.2.1 step.2.2)]
      congr 1
      rw [producerIteration_report cap st step.1 step.2.1 step.2.2 hw]
    · simp only [runProducer, List.foldl_cons, reportedTPS, if_neg hw, List.nil_append]
      rw [show (List.foldl (fun s stp => producerIteration cap s stp.1 stp.2.1 stp.2.2)
          (producerIteration cap st step.1 step.2.1 step.2.2) rest) =
          runProducer cap (producerIteration cap st step.1 step.2.1 step.2.2) rest from rfl]
      rw [ih (producerIteration cap st step.1 step.2.1 step.2.2)]
      congr 1
      rw [producerIteration_no_report cap st step.1 step.2.1 step.2.2 hw]

theorem reportedTPS_nonneg (cap : ℕ) :
    ∀ (steps : List (List Bytes × List ℕ × ℚ)) (st : LoopState),
    ∀ x ∈ reportedTPS cap st steps, 0 ≤ x := by
  intro steps
  induction steps with
  | nil => intro st x hx; cases hx
  | cons step rest ih =>
    intro st x hx
    by_cases hw : (1 : ℚ)/10 ≤ step.2.2
    · simp only [reportedTPS, if_pos hw, List.singleton_append] at hx
      rcases List.mem_cons.mp hx with h | h
      · subst h
        rw [producerIteration_report cap st step.1 step.2.1 step.2.2 hw]
        have hwpos : (0 : ℚ) < step.2.2 := lt_of_lt_of_le (by norm_num) hw
        exact pyInt_nonneg (div_nonneg (Nat.cast_nonneg _) hwpos.le)
      · exact ih _ x h
    · simp only [reportedTPS, if_neg hw, List.nil_append] at hx
      exact ih _ x hx

theorem appendAll_of_fits {α : Type} (maxlen : ℕ) :
    ∀ (xs l : List α), l.length + xs.length ≤ maxlen →
    appendAll maxlen l xs = l ++ xs := by
  intro xs
  induction xs with
  | nil => intro l h; simp [appendAll]
  | cons x rest ih =>
    intro l h
    simp only [List.length_cons] at h
    have hl : l.length < maxlen := by omega
    simp only [appendAll, List.foldl_cons, dequeAppend, if_pos hl]
    have h2 : (l ++ [x]).length + rest.length ≤ maxlen := by
      simp only [List.length_append, List.length_singleton]; omega
    have hrec := ih (l ++ [x]) h2
    simp only [appendAll] at hrec
    rw [hrec, List.append_assoc, List.singleton_append]

theorem appendAll_overflow {α : Type} (cap : ℕ) (hcap : 0 < cap)
    (xs : List α) (hlen : xs.length = cap + 1) :
    appendAll cap [] xs = xs.tail := by
  rcases List.eq_nil_or_concat xs with rfl | ⟨ys, z, rfl⟩
  · simp only [List.length_nil] at hlen; omega
  · rw [List.concat_eq_append] at hlen ⊢
    have hys : ys.length = cap := by
      simp only [List.length_append, List.length_singleton] at hlen; omega
    have hfit : ([] : List α).length + ys.length ≤ cap := by simp [hys]
    have hfold : appendAll cap [] (ys ++ [z]) =
        dequeAppend cap (appendAll cap [] ys) z := by
      simp [appendAll, List.foldl_append]
    rw [hfold, appendAll_of_fits cap ys [] hfit, List.nil_append]
    have hnotlt : ¬ ys.length < cap := by omega
    simp only [dequeAppend, if_neg hnotlt]
    cases ys with
    | nil => simp at hys; omega
    | cons a t => simp

theorem pushItem_zero (q : List Bytes) (item : Bytes) : pushItem 0 q item = q := by
  simp [pushItem]

theorem submitItems_zero (q : List Bytes) :
    ∀ items : List Bytes, submitItems 0 q items = q := by
  intro items
  induction items with
  | nil => rfl
  | cons x rest ih =>
    simp only [submitItems, List.foldl_cons, pushItem_zero] at *
    exact ih

theorem producerIteration_q (cap : ℕ) (st : LoopState) (items : List Bytes)
    (results : List ℕ) (window : ℚ) :
    (producerIteration cap st items results window).q = submitItems cap st.q items := by
  by_cases hw : (1 : ℚ)/10 ≤ window
  · rw [producerIteration_report cap st items results window hw]
  · rw [producerIteration_no_report cap st items results window hw]

theorem runProducer_zero_q :
    ∀ (steps : List (List Bytes × List ℕ × ℚ)) (st : LoopState),
    (runProducer 0 st steps).q = st.q := by
  intro steps
  induction steps with
  | nil => intro st; rfl
  | cons step rest ih =>
    intro st
    simp only [runProducer, List.foldl_cons]
    have : (List.foldl (fun s stp => producerIteration 0 s stp.1 stp.2.1 stp.2.2)
        (producerIteration 0 st step.1 step.2.1 step.2.2) rest) =
        runProducer 0 (producerIteration 0 st step.1 step.2.1 step.2.2) rest := rfl
    rw [this, ih, producerIteration_q, submitItems_zero]

theorem runProducer_transaction_count (cap : ℕ) :
    ∀ (steps : List (List Bytes × List ℕ × ℚ)) (st : LoopState),
    (runProducer cap st steps).transaction_count =
      st.transaction_count + (steps.map (fun s => s.1.length)).sum := by
  intro steps
  induction steps with
  | nil => intro st; simp [runProducer]
  | cons step rest ih =>
    intro st
    simp only [runProducer, List.foldl_cons, List.map_cons, List.sum_cons]
    have hrw : (List.foldl (fun s stp => producerIteration cap s stp.1 stp.2.1 stp.2.2)
        (producerIteration cap st step.1 step.2.1 step.2.2) rest) =
        runProducer cap (producerIteration cap st step.1 step.2.1 step.2.2) rest := rfl
    rw [hrw, ih, producerIteration_transaction_count]
    ring

theorem filter_id_length_of_all_true :
    ∀ l : List Bool, (∀ x ∈ l, x = true) → (l.filter id).length = l.length := by
  intro l
  induction l with
  | nil => intro _; rfl
  | cons x rest ih =>
    intro h
    have hx : x = true := h x (List.mem_cons_self x rest)
    have hrest : ∀ y ∈ rest, y = true := fun y hy => h y (List.mem_cons_of_mem x hy)
    simp [hx, ih hrest]

theorem processDigests_ok (H : HashAlg → Bytes → Except String Bytes)
    (htot : ∀ a x, ∃ y, H a x = Except.ok y) (tx : Bytes) :
    ∃ d, processDigests H tx = Except.ok d := by
  obtain ⟨d1, h1⟩ := htot .blake2b tx
  obtain ⟨d2, h2⟩ := htot .sha3_256 d1
  obtain ⟨d3, h3⟩ := htot .sha3_512 (.append d2 d1)
  obtain ⟨d4, h4⟩ := htot .blake2s d3
  exact ⟨(d1, d2, d3, d4), by simp [processDigests, h1, h2, h3, h4]⟩

/-! Claim theorems. -/

/-- C1: in the Producer loop, `accumulated_tx` is incremented by the batch size
at submission time (line 223) and again by each arriving processed count from
the result queue (line 231) before the division by the elapsed window
(line 238): the TPS numerator equals the old accumulator plus the submitted
batch size plus the sum of the drained result counts, so a batch whose
completion count arrives within the same window contributes twice. -/
theorem C1_accumulator_double_counts (cap : ℕ) (st : LoopState)
    (items : List Bytes) (results : List ℕ) (window : ℚ)
    (hw : (1 : ℚ)/10 ≤ window) :
    (producerIteration cap st items results window).current_tps =
      pyInt (((st.accumulated_tx + items.length + results.sum : ℕ) : ℚ) / window) ∧
    (producerIteration cap { st with accumulated_tx := 0 } items
        [items.length] window).current_tps =
      pyInt (((2 * items.length : ℕ) : ℚ) / window) := by
  constructor
  · rw [producerIteration_report cap st items results window hw]
  · rw [producerIteration_report cap { st with accumulated_tx := 0 } items
      [items.length] window hw]
    have harg : ({ st with accumulated_tx := 0 } : LoopState).accumulated_tx +
        items.length + ([items.length] : List ℕ).sum = 2 * items.length := by
      simp only [List.sum_cons, List.sum_nil]
      omega
    rw [harg]

/-- C1 witness: a concrete iteration (one submitted item, one drained result
count of 1, window 0.1 s) instantiating both conjuncts. -/
theorem C1_accumulator_double_counts_witness :
    (1 : ℚ)/10 ≤ (1 : ℚ)/10 ∧
    (producerIteration 1 ⟨[], 0, 0, 0, 0⟩ [Bytes.raw []] [1] ((1 : ℚ)/10)).current_tps = 20 := by
  have h := C1_accumulator_double_counts 1 ⟨[], 0, 0, 0, 0⟩ [Bytes.raw []] [1]
    ((1 : ℚ)/10) (le_refl _)
  refine ⟨le_refl _, ?_⟩
  rw [h.1]
  norm_num [pyInt]

/-- C2 counterexample: with accumulated count 3 and window 2 s the code stores
`int(3 / 2) = 1`, while `round(3 / 2) = 2`; they differ by a full unit, far
beyond floating-point tolerance. -/
theorem C2_counterexample :
    currentTPS 3 2 = 1 ∧ round ((3 : ℚ) / 2) = 2 ∧
    currentTPS 3 2 ≠ round ((3 : ℚ) / 2) := by
  have h1 : currentTPS 3 2 = 1 := by
    norm_num [currentTPS, pyInt]
  have h2 : round ((3 : ℚ) / 2) = 2 := by
    norm_num [round_eq]
  exact ⟨h1, h2, by rw [h1, h2]; norm_num⟩

/-- C2 amended: the stored `current_tps` is `int(C / T)`, which truncates
toward zero — for the nonnegative quotients occurring here this is `⌊C / T⌋`,
not `round(C / T)`; the truncation error is below 1. -/
theorem C2_truncated_quotient (C : ℕ) (T : ℚ) (hT : 0 < T) :
    currentTPS C T = ⌊(C : ℚ) / T⌋ ∧
    (C : ℚ) / T - 1 < (currentTPS C T : ℚ) ∧
    ((currentTPS C T : ℚ)) ≤ (C : ℚ) / T := by
  have hnn : (0 : ℚ) ≤ (C : ℚ) / T := div_nonneg (Nat.cast_nonneg C) hT.le
  have h1 : currentTPS C T = ⌊(C : ℚ) / T⌋ := pyInt_eq_floor hnn
  refine ⟨h1, ?_, ?_⟩
  · rw [h1]; exact Int.sub_one_lt_floor _
  · rw [h1]; exact Int.floor_le _

/-- C2 amended witness: the instance C = 3, T = 2. -/
theorem C2_truncated_quotient_witness :
    (0 : ℚ) < 2 ∧ currentTPS 3 2 = ⌊((3 : ℕ) : ℚ) / 2⌋ := by
  have h := C2_truncated_quotient 3 2 (by norm_num)
  exact ⟨by norm_num, h.1⟩

/-- C3: `peak_tps` is updated as `max(peak_tps, current_tps)` at line 239, so
along any run it is monotonically non-decreasing, and starting from the
initial `peak_tps = 0`, after any run with a non-empty sequence of reports it
equals the maximum of all reported `current_tps` values (it is one of them and
an upper bound of all of them; all reported values are nonnegative). -/
theorem C3_peak_is_max (cap : ℕ) (st0 : LoopState)
    (steps : List (List Bytes × List ℕ × ℚ))
    (hpeak0 : st0.peak_tps = 0)
    (hne : reportedTPS cap st0 steps ≠ []) :
    (∀ (st : LoopState) (steps2 : List (List Bytes × List ℕ × ℚ)),
      st.peak_tps ≤ (runProducer cap st steps2).peak_tps) ∧
    (runProducer cap st0 steps).peak_tps ∈ reportedTPS cap st0 steps ∧
    (∀ x ∈ reportedTPS cap st0 steps, x ≤ (runProducer cap st0 steps).peak_tps) := by
  have mono : ∀ (steps2 : List (List Bytes × List ℕ × ℚ)) (st : LoopState),
      st.peak_tps ≤ (runProducer cap st steps2).peak_tps := by
    intro steps2
    induction steps2 with
    | nil => intro st; exact le_refl _
    | cons s rest ih =>
      intro st
      have h1 := producerIteration_peak cap st s.1 s.2.1 s.2.2
      have h2 := ih (producerIteration cap st s.1 s.2.1 s.2.2)
      exact le_trans h1 h2
  have hpeak : (runProducer cap st0 steps).peak_tps =
      (reportedTPS cap st0 steps).foldl max 0 := by
    rw [runProducer_peak_eq, hpeak0]
  refine ⟨fun st steps2 => mono steps2 st, ?_, ?_⟩
  · rw [hpeak]
    rcases foldl_max_eq_or_mem (reportedTPS cap st0 steps) 0 with h | h
    · rcases List.exists_mem_of_ne_nil (reportedTPS cap st0 steps) hne with ⟨y, hy⟩
      have hub := foldl_max_is_ub (reportedTPS cap st0 steps) 0 y hy
      have hnn := reportedTPS_nonneg cap steps st0 y hy
      have hy0 : y = 0 := le_antisymm (h ▸ hub) hnn
      rw [h, ← hy0]
      exact hy
    · exact h
  · intro x hx
    rw [hpeak]
    exact foldl_max_is_ub _ 0 x hx

/-- C3 witness: a one-step run reporting once, starting from the initial
state. -/
theorem C3_peak_is_max_witness :
    (⟨[], 0, 0, 0, 0⟩ : LoopState).peak_tps = 0 ∧
    reportedTPS 1 ⟨[], 0, 0, 0, 0⟩ [([Bytes.raw []], [], (1 : ℚ)/10)] ≠ [] ∧
    (runProducer 1 ⟨[], 0, 0, 0, 0⟩ [([Bytes.raw []], [], (1 : ℚ)/10)]).peak_tps ∈
      reportedTPS 1 ⟨[], 0, 0, 0, 0⟩ [([Bytes.raw []], [], (1 : ℚ)/10)] := by
  have hne : reportedTPS 1 ⟨[], 0, 0, 0, 0⟩ [([Bytes.raw []], [], (1 : ℚ)/10)] ≠ [] := by
    simp [reportedTPS]
  have h := C3_peak_is_max 1 ⟨[], 0, 0, 0, 0⟩ [([Bytes.raw []], [], (1 : ℚ)/10)] rfl hne
  exact ⟨rfl, hne, h.2.1⟩

/-- C4: each sample series (`timestamps`, `tps_values`, `cpu_usage`,
`memory_usage`) is a `deque(maxlen=600)`: an append never takes the length
beyond `max_points = 600`, and after `max_points + 1` appends into an empty
series the result is exactly the tail of the appended sequence — the newest
sample is present and the oldest original sample has been evicted (absent
whenever the samples are pairwise distinct). -/
theorem C4_sample_series_bounded :
    (∀ (α : Type) (l : List α) (x : α), l.length ≤ max_points →
      (dequeAppend max_points l x).length ≤ max_points) ∧
    (∀ (α : Type) (xs : List α) (h : xs ≠ []), xs.length = max_points + 1 →
      appendAll max_points [] xs = xs.tail ∧
      xs.getLast h ∈ appendAll max_points [] xs ∧
      (xs.Nodup → xs.head h ∉ appendAll max_points [] xs)) := by
  constructor
  · intro α l x hl
    by_cases hlt : l.length < max_points
    · simp only [dequeAppend, if_pos hlt, List.length_append, List.length_singleton]
      omega
    · simp only [dequeAppend, if_neg hlt, List.length_append, List.length_singleton,
        List.length_tail]
      have : 0 < max_points := by simp [max_points]
      omega
  · intro α xs h hlen
    have hcap : 0 < max_points := by simp [max_points]
    have h1 : appendAll max_points [] xs = xs.tail :=
      appendAll_overflow max_points hcap xs hlen
    refine ⟨h1, ?_, ?_⟩
    · rw [h1]
      cases xs with
      | nil => exact absurd rfl h
      | cons a t =>
        have ht : t ≠ [] := by
          intro h0
          rw [h0] at hlen
          simp [max_points] at hlen
        rw [List.getLast_cons ht]
        simp only [List.tail_cons]
        exact List.getLast_mem ht
    · intro hnodup
      rw [h1]
      cases xs with
      | nil => exact absurd rfl h
      | cons a t =>
        simpa using (List.nodup_cons.mp hnodup).1

/-- C4 witness: 601 pairwise-distinct samples; the resulting series is the
tail, the newest sample is present, the oldest absent. -/
theorem C4_sample_series_bounded_witness :
    (List.range (max_points + 1)).length = max_points + 1 ∧
    appendAll max_points [] (List.range (max_points + 1)) =
      (List.range (max_points + 1)).tail := by
  have hne : List.range (max_points + 1) ≠ [] := by
    simp [List.range_eq_nil]
  have h := C4_sample_series_bounded.2 ℕ (List.range (max_points + 1)) hne
    (by simp)
  exact ⟨by simp, h.1⟩

/-- C5: `process_transaction` computes exactly the four chained digests
blake2b(input), sha3_256(digest1), sha3_512(digest2 ‖ digest1),
blake2s(digest3) — four pairwise-distinct algorithms — returns True when all
four digest calls complete, and when a digest call raises it catches the
fault and returns False instead of propagating it. -/
theorem C5_hash_chain (H : HashAlg → Bytes → Except String Bytes) (tx : Bytes) :
    ([HashAlg.blake2b, HashAlg.sha3_256, HashAlg.sha3_512, HashAlg.blake2s].Nodup) ∧
    (∀ d1 d2 d3 d4,
      H .blake2b tx = .ok d1 →
      H .sha3_256 d1 = .ok d2 →
      H .sha3_512 (.append d2 d1) = .ok d3 →
      H .blake2s d3 = .ok d4 →
      processDigests H tx = .ok (d1, d2, d3, d4) ∧
      process_transaction H tx = true) ∧
    (∀ e, processDigests H tx = .error e → process_transaction H tx = false) := by
  refine ⟨by decide, ?_, ?_⟩
  · intro d1 d2 d3 d4 h1 h2 h3 h4
    have hd : processDigests H tx = .ok (d1, d2, d3, d4) := by
      simp [processDigests, h1, h2, h3, h4]
    exact ⟨hd, by simp [process_transaction, hd]⟩
  · intro e he
    simp [process_transaction, he]

/-- C5 witness: the hashlib digest family on an empty byte string. -/
theorem C5_hash_chain_witness :
    process_transaction hashlibDigest (Bytes.raw []) = true ∧
    [HashAlg.blake2b, HashAlg.sha3_256, HashAlg.sha3_512, HashAlg.blake2s].Nodup := by
  have h := C5_hash_chain hashlibDigest (Bytes.raw [])
  exact ⟨(h.2.1 _ _ _ _ rfl rfl rfl rfl).2, h.1⟩

/-- C6: the configured batch size is `target_tps // 100` clamped into
[5000, 50000] (lines 61-63); at the default target rate 1,000,000 it is
10,000. -/
theorem C6_batch_size_clamped :
    (∀ t : ℕ, 5000 ≤ batchSizeFor t ∧ batchSizeFor t ≤ 50000) ∧
    (∀ t : ℕ, t / 100 < 5000 → batchSizeFor t = 5000) ∧
    (∀ t : ℕ, 50000 < t / 100 → batchSizeFor t = 50000) ∧
    (∀ t : ℕ, 5000 ≤ t / 100 → t / 100 ≤ 50000 → batchSizeFor t = t / 100) ∧
    batchSizeFor 1000000 = 10000 ∧ batch_size = 10000 := by
  refine ⟨?_, ?_, ?_, ?_, by norm_num [batchSizeFor],
    by norm_num [batch_size, batchSizeFor, target_tps]⟩
  · intro t; unfold batchSizeFor; omega
  · intro t h; unfold batchSizeFor; omega
  · intro t h; unfold batchSizeFor; omega
  · intro t h1 h2; unfold batchSizeFor; omega

/-- C6 witness: the in-range case at the default target rate. -/
theorem C6_batch_size_clamped_witness :
    5000 ≤ 1000000 / 100 ∧ 1000000 / 100 ≤ 50000 ∧
    batchSizeFor 1000000 = 1000000 / 100 := by
  have h := C6_batch_size_clamped.2.2.2.1 1000000 (by norm_num) (by norm_num)
  exact ⟨by norm_num, by norm_num, h⟩

/-- C7: the pacing interval `1.0 / (target_tps / batch_size)` of line 203
equals `batch_size / target_tps`, and at target rate 1,000,000 with batch
size 10,000 it is 0.01 s. -/
theorem C7_pacing_interval (t b : ℚ) (ht : t ≠ 0) (hb : b ≠ 0) :
    batchInterval t b = b / t ∧ batchInterval 1000000 10000 = 1/100 := by
  constructor
  · rw [batchInterval, one_div_div]
  · norm_num [batchInterval]

/-- C7 witness: the default configuration. -/
theorem C7_pacing_interval_witness :
    (1000000 : ℚ) ≠ 0 ∧ (10000 : ℚ) ≠ 0 ∧
    batchInterval 1000000 10000 = 10000 / 1000000 ∧
    batchInterval 1000000 10000 = 1/100 := by
  have h := C7_pacing_interval 1000000 10000 (by norm_num) (by norm_num)
  exact ⟨by norm_num, by norm_num, h.1, h.2⟩

/-- C8 counterexample: with the queue at capacity (capacity 0) and one
generated item, the `put_nowait` attempt is rejected and the item is dropped —
the queue is unchanged and the item is never retried (`continue` moves to the
next item) — yet the counters still count it as submitted, so the rejected
item is treated as delivered, refuting the claimed retry-not-assume-delivered
handling. -/
theorem C8_counterexample :
    submitItems 0 [] [Bytes.raw [0]] = [] ∧
    (producerIteration 0 ⟨[], 0, 0, 0, 0⟩ [Bytes.raw [0]] [] 1).transaction_count = 1 ∧
    ¬ ((producerIteration 0 ⟨[], 0, 0, 0, 0⟩ [Bytes.raw [0]] [] 1).transaction_count ≤
       (producerIteration 0 ⟨[], 0, 0, 0, 0⟩ [Bytes.raw [0]] [] 1).q.length) := by
  have hq : (producerIteration 0 ⟨[], 0, 0, 0, 0⟩ [Bytes.raw [0]] [] 1).q = [] := by
    rw [producerIteration_q, submitItems_zero]
  have hc : (producerIteration 0 ⟨[], 0, 0, 0, 0⟩ [Bytes.raw [0]] [] 1).transaction_count = 1 := by
    rw [producerIteration_transaction_count]
    rfl
  refine ⟨submitItems_zero [] _, hc, ?_⟩
  rw [hc, hq]
  norm_num

/-- C8 amended: the push is indeed non-blocking — an item is appended only when
the queue has free capacity, and on a full queue the attempt leaves the queue
unchanged: the rejected item is dropped after the 0.0001 s backoff sleep and
never retried — while the full batch size is added to the counters regardless
of how many items were accepted, so rejected items are counted as delivered. -/
theorem C8_drop_on_full (cap : ℕ) (q : List Bytes) (item : Bytes)
    (st : LoopState) (items : List Bytes) (results : List ℕ) (window : ℚ) :
    (cap ≤ q.length → pushItem cap q item = q) ∧
    (q.length < cap → pushItem cap q item = q ++ [item]) ∧
    (producerIteration cap st items results window).transaction_count =
      st.transaction_count + items.length := by
  refine ⟨?_, ?_, producerIteration_transaction_count cap st items results window⟩
  · intro h
    simp [pushItem, Nat.not_lt.mpr h]
  · intro h
    simp [pushItem, h]

/-- C8 amended witness: a full queue (capacity 0) and a free queue
(capacity 1). -/
theorem C8_drop_on_full_witness :
    pushItem 0 [] (Bytes.raw []) = [] ∧
    pushItem 1 [] (Bytes.raw []) = [] ++ [Bytes.raw []] ∧
    (producerIteration 0 ⟨[], 0, 0, 0, 0⟩ [Bytes.raw []] [] 1).transaction_count = 0 + 1 := by
  have h0 := C8_drop_on_full 0 [] (Bytes.raw []) ⟨[], 0, 0, 0, 0⟩ [Bytes.raw []] [] 1
  have h1 := C8_drop_on_full 1 [] (Bytes.raw []) ⟨[], 0, 0, 0, 0⟩ [Bytes.raw []] [] 1
  exact ⟨h0.1 (le_refl 0), h1.2.1 (by norm_num), h0.2.2⟩

/-- C9: when every digest call completes — as the hashlib blake2/sha3 digests
do on every byte string — `process_transaction` returns True on every input,
the exception branch returning False is unreachable, and every published
batch-result count equals the batch length. -/
theorem C9_process_transaction_total (H : HashAlg → Bytes → Except String Bytes)
    (htot : ∀ a x, ∃ y, H a x = Except.ok y) :
    (∀ tx, process_transaction H tx = true) ∧
    (∀ batch : List Bytes, publishedCount (process_batch H batch) = batch.length) := by
  have htx : ∀ tx, process_transaction H tx = true := by
    intro tx
    obtain ⟨d, hd⟩ := processDigests_ok H htot tx
    simp [process_transaction, hd]
  refine ⟨htx, ?_⟩
  intro batch
  have hall : ∀ x ∈ process_batch H batch, x = true := by
    intro x hx
    simp only [process_batch, List.mem_map] at hx
    obtain ⟨tx, _, hfx⟩ := hx
    rw [← hfx]
    exact htx tx
  rw [publishedCount, filter_id_length_of_all_true _ hall, process_batch,
    List.length_map]

/-- C9 witness: the hashlib digest family on a two-element batch. -/
theorem C9_process_transaction_total_witness :
    (∀ a x, ∃ y, hashlibDigest a x = Except.ok y) ∧
    publishedCount (process_batch hashlibDigest [Bytes.raw [], Bytes.raw [0]]) = 2 := by
  have htot : ∀ a x, ∃ y, hashlibDigest a x = Except.ok y := fun a x => ⟨_, rfl⟩
  have h := C9_process_transaction_total hashlibDigest htot
  exact ⟨htot, h.2 [Bytes.raw [], Bytes.raw [0]]⟩

/-- C10: the `processed_transactions` field of the final summary equals the
lifetime `transaction_count`, which is incremented by the full batch size at
submission time (line 224) for every generated batch: over a run of
equal-sized batches it equals batch count × batch size, items rejected by a
full queue included; it is independent of the queue capacity (hence of what
workers could process), and a capacity-0 run enqueues nothing at all yet
reports the same total. -/
theorem C10_summary_counts_generated (cap : ℕ) (st : LoopState)
    (steps : List (List Bytes × List ℕ × ℚ)) (tps_values : List ℤ) (b : ℕ)
    (hsz : ∀ s ∈ steps, s.1.length = b) (h0 : st.transaction_count = 0) :
    (cleanupSummary (runProducer cap st steps) tps_values).processed_transactions =
      steps.length * b ∧
    (∀ cap2 : ℕ, (runProducer cap2 st steps).transaction_count =
      (runProducer cap st steps).transaction_count) ∧
    (runProducer 0 st steps).q = st.q := by
  have hsum : ∀ (L : List (List Bytes × List ℕ × ℚ)), (∀ s ∈ L, s.1.length = b) →
      (L.map (fun s => s.1.length)).sum = L.length * b := by
    intro L
    induction L with
    | nil => intro _; simp
    | cons s rest ih =>
      intro hh
      simp only [List.map_cons, List.sum_cons, List.length_cons]
      rw [hh s (List.mem_cons_self s rest),
        ih (fun y hy => hh y (List.mem_cons_of_mem s hy))]
      ring
  refine ⟨?_, ?_, runProducer_zero_q steps st⟩
  · show (runProducer cap st steps).transaction_count = steps.length * b
    rw [runProducer_transaction_count cap steps st, h0, hsum steps hsz, zero_add]
  · intro cap2
    rw [runProducer_transaction_count cap steps st,
      runProducer_transaction_count cap2 steps st]

/-- C10 witness: one batch of one item into a capacity-0 queue. -/
theorem C10_summary_counts_generated_witness :
    Summary.processed_transactions
      (cleanupSummary (runProducer 0 ⟨[], 0, 0, 0, 0⟩ [([Bytes.raw []], [], 1)]) []) = 1 ∧
    (runProducer 0 ⟨[], 0, 0, 0, 0⟩ [([Bytes.raw []], [], 1)]).q = [] := by
  have h := C10_summary_counts_generated 0 ⟨[], 0, 0, 0, 0⟩
    [([Bytes.raw []], [], 1)] [] 1
    (fun s hs => by rw [List.mem_singleton.mp hs]; rfl) rfl
  exact ⟨h.1, h.2.2⟩

end RB
